import Mathlib

/-!
# digivision-backend: the bounded-concurrency product fetch pipeline

A shallow embedding of `internal/productmeta/digikala.go`:

* `Fetch` / `fetchFromDigikala`: the cache-aside item resolver, as a state-passing
  function over an explicit Redis cache and an upstream-call counter;
* the worker goroutine of `singleAsyncFetch`: the retry loop, as a function of the
  results of the successive `Fetch` attempts;
* the semaphore `f.sem`: a buffered Go channel, as its buffer occupancy;
* `AsyncFetch`: launcher goroutine, worker goroutines and consumer goroutine, as a
  labelled transition system whose actions are the blocking points of the source.
-/

namespace Productmeta

/-! ## Go values -/

/-- Go `error` values. `base` is an error created with a message (`fmt.Errorf`,
a library error); `wrap` is `errors.Wrapf(cause, msg)`. -/
inductive GoError where
  | base (msg : String)
  | wrap (cause : GoError) (msg : String)
  deriving DecidableEq, Repr

/-- The `Error()` text: `errors.Wrapf` prepends its message and a colon. -/
def GoError.Error : GoError → String
  | .base m => m
  | .wrap c m => m ++ ": " ++ c.Error

/-- Go `strings.HasSuffix`. -/
def HasSuffix (s suffix : String) : Bool := suffix.data.isSuffixOf s.data

/-- A float32 is only ever copied by this code; it is carried as its bit pattern. -/
abbrev F32 := Nat

/-- Modelled from the spec: `rank.Product`, the `CandidateItem` of the ranked input list
(`{ id: string, score: float }`); its declaration is in `internal/rank`. -/
structure RankProduct where
  Id : String
  Score : F32
  deriving DecidableEq, Repr

/-- Modelled from the spec: `v1.Rating` (`rating: {rate: float, count: int}`). -/
structure Rating where
  Rate : F32
  Count : Int
  deriving DecidableEq, Repr

/-- Modelled from the spec: `v1.Category` (`{ title, url: string }`). -/
structure Category where
  Title : String
  Url : String
  deriving DecidableEq, Repr

/-- Modelled from the spec: `v1.Product`, the `EnrichedItem`, with the fields that `Fetch`
fills in; its declaration is in `pkg/api/v1`. -/
structure Product where
  Id : Int
  Title : String
  Url : String
  Status : String
  ImageUrl : String
  Rate : Rating
  Categories : List Category
  Price : Int
  Score : F32
  deriving DecidableEq, Repr

/-- The struct `ProductWithError`: a nil pointer field is `none`. -/
structure ProductWithError where
  Product : Option Product
  Error : Option GoError
  deriving DecidableEq, Repr

/-! ## The worker of `singleAsyncFetch`: classification and retry -/

/-- What one run of the worker goroutine did: the value it sends on its response
channel, how many times it called `Fetch`, how many times it slept. -/
structure WorkerRun where
  delivered : ProductWithError
  fetchCalls : Nat
  sleeps : Nat
  deriving DecidableEq, Repr

/-- The loop `for e != nil { ... }` of the worker. `cur` is the result `(p, e)` of the
latest `Fetch`, `fetch k` the result of the `k`-th call (from 0), `calls` the number of
calls made so far. Each iteration that does not return uses one unit of fuel. -/
def retryLoop (productId : String) (maxRetry : Int) (fetch : Nat → Except GoError Product) :
    Nat → Except GoError Product → Int → Nat → Nat → Option WorkerRun
  | _, .ok p, _, calls, sleeps =>
      some ⟨⟨some p, none⟩, calls, sleeps⟩
  | 0, .error _, _, _, _ => none
  | fuel + 1, .error e, retryCount, calls, sleeps =>
      if HasSuffix e.Error "is inactive" then
        some ⟨⟨none, some (.wrap e ("failed to fetch product " ++ productId))⟩, calls, sleeps⟩
      else if HasSuffix e.Error "context canceled" then
        some ⟨⟨none, some (.wrap e ("failed to fetch product " ++ productId))⟩, calls, sleeps⟩
      else
        -- time.Sleep(1 * time.Second)
        if retryCount ≥ maxRetry then
          some ⟨⟨none, some (.wrap e ("failed to fetch product " ++ productId ++ " after "
            ++ toString retryCount ++ " retries"))⟩, calls, sleeps + 1⟩
        else
          retryLoop productId maxRetry fetch fuel (fetch calls) (retryCount + 1) (calls + 1)
            (sleeps + 1)

/-- The goroutine that `singleAsyncFetch` starts once its send on `f.sem` has gone through
(the send and the deferred receive are `semSend` and `semRecv` below): a first `Fetch`,
`retryCount := 0`, then the loop. The loop runs at most `maxRetry + 1` iterations, which
is the fuel given. -/
def singleAsyncFetch (productId : String) (maxRetry : Int) (fetch : Nat → Except GoError Product) :
    Option WorkerRun :=
  retryLoop productId maxRetry fetch (maxRetry.toNat + 1) (fetch 0) 0 1 0

/-- A failure that the spec calls transient: not "inactive", not context-canceled, not
deadline-exceeded (recognised, as the code does, by the end of the message). -/
def Transient (e : GoError) : Prop :=
  HasSuffix e.Error "is inactive" = false ∧ HasSuffix e.Error "context canceled" = false ∧
    HasSuffix e.Error "context deadline exceeded" = false

instance (e : GoError) : Decidable (Transient e) := by
  unfold Transient; infer_instance

/-- A failure that the spec calls terminal. -/
def Terminal (e : GoError) : Prop :=
  HasSuffix e.Error "is inactive" = true ∨ HasSuffix e.Error "context canceled" = true ∨
    HasSuffix e.Error "context deadline exceeded" = true

instance (e : GoError) : Decidable (Terminal e) := by
  unfold Terminal; infer_instance

/-! ## `Fetch`: the cache-aside item resolver -/

/-- Modelled from the spec: the `url` object of a Digikala payload; the declaration of
`DigikalaProduct` and its parts is in a file of this package that is not in the tree. -/
structure DkUrl where
  Uri : String
  deriving DecidableEq, Repr

/-- Modelled from the spec: the main image of a payload, a list of URLs (`Url[0]` is read). -/
structure DkMainImage where
  Url : List String
  deriving DecidableEq, Repr

/-- Modelled from the spec: the `images` object of a payload. -/
structure DkImages where
  Main : DkMainImage
  deriving DecidableEq, Repr

/-- Modelled from the spec: the `rating` object of a payload. -/
structure DkRating where
  Rate : F32
  Count : Int
  deriving DecidableEq, Repr

/-- Modelled from the spec: one step of the breadcrumb path of a payload. -/
structure DkBreadcrumb where
  Title : String
  Url : DkUrl
  deriving DecidableEq, Repr

/-- Modelled from the spec: the price of the default variant. -/
structure DkPrice where
  SellingPrice : Int
  deriving DecidableEq, Repr

/-- Modelled from the spec: the default variant of a payload. -/
structure DkVariant where
  Price : DkPrice
  deriving DecidableEq, Repr

/-- Modelled from the spec: `DigikalaProduct.Data.Product`, with the fields `Fetch` reads. -/
structure DkProductInfo where
  IsInactive : Bool
  TitleFa : String
  Url : DkUrl
  Status : String
  Images : DkImages
  Rating : DkRating
  Breadcrumb : List DkBreadcrumb
  DefaultVariant : DkVariant
  deriving DecidableEq, Repr

/-- Modelled from the spec: `DigikalaProduct.Data`. -/
structure DkData where
  Product : DkProductInfo
  deriving DecidableEq, Repr

/-- Modelled from the spec: `DigikalaProduct`, the decoded upstream payload. -/
structure DigikalaProduct where
  Data : DkData
  deriving DecidableEq, Repr

/-- The Go zero value `DigikalaProduct{}`: empty strings, zero numbers, nil slices. -/
def DigikalaProduct.zero : DigikalaProduct :=
  ⟨⟨⟨false, "", ⟨""⟩, "", ⟨⟨[]⟩⟩, ⟨0, 0⟩, [], ⟨⟨0⟩⟩⟩⟩⟩

/-- Modelled from the spec: `ToCategories`, which is not in the tree: the breadcrumb path
becomes the ordered sequence of categories, in the same order. -/
def ToCategories (baseUrl : String) (breadcrumb : List DkBreadcrumb) : List Category :=
  breadcrumb.map fun b => ⟨b.Title, baseUrl ++ b.Url.Uri⟩

/-- The fields of `DigikalaFetcher` that are plain data; `sem` is a channel of capacity
`concurrencyFactor` (`NewDigikalaFetcher`), and the two clients are collaborators. -/
structure DigikalaFetcher where
  baseUrl : String
  apiBaseUrl : String
  maxRetry : Int
  concurrencyFactor : Nat
  deriving DecidableEq, Repr

/-- An HTTP response as `fetchFromDigikala` reads it. -/
structure HttpResponse where
  Status : String
  Body : String
  deriving DecidableEq, Repr

/-- The behaviour of the collaborators during one call of `Fetch`: whether the Redis
`Get` / `Set` commands fail (with an error that is not `redis.Nil`), what the HTTP client
answers for a URL, and what `json.Unmarshal` does with a text and a target: the target
after the call and the error it returns. -/
structure Collaborators where
  redisGetErr : Option GoError
  redisSetErr : Option GoError
  httpGet : String → Except GoError HttpResponse
  unmarshal : String → DigikalaProduct → DigikalaProduct × Option GoError

/-- What `Fetch` can change and what is counted: the Redis contents and the number of
upstream HTTP requests issued so far. -/
structure World where
  cache : List (String × String)
  upstreamCalls : Nat
  deriving DecidableEq, Repr

/-- A Go call returns a value, returns an error, or panics. -/
inductive GoResult (α : Type) where
  | ok (value : α)
  | err (e : GoError)
  | panic (msg : String)
  deriving DecidableEq, Repr

/-- The value of a run of decimal digits read from the left with accumulator `acc`. -/
def parseDigits : List Char → Nat → Option Nat
  | [], acc => some acc
  | c :: cs, acc =>
      if '0' ≤ c ∧ c ≤ '9' then parseDigits cs (acc * 10 + (c.toNat - '0'.toNat)) else none

/-- The lower-case hexadecimal digit of a number below sixteen. -/
def hexDigit (n : Nat) : Char := "0123456789abcdef".data.getD n '0'

/-- How Go `strconv.Quote` writes one character: the double quote and the backslash are
escaped, the control characters are written `\a \b \f \n \r \t \v` or as `\x` and two
hexadecimal digits, and every other character is kept (a non-printable character beyond
ASCII, which Go writes as a `\u` escape, is kept too). -/
def quoteChar (c : Char) : List Char :=
  let bs := Char.ofNat 92
  if c.toNat = 34 then [bs, c]
  else if c.toNat = 92 then [bs, bs]
  else if c.toNat = 7 then [bs, 'a']
  else if c.toNat = 8 then [bs, 'b']
  else if c.toNat = 12 then [bs, 'f']
  else if c.toNat = 10 then [bs, 'n']
  else if c.toNat = 13 then [bs, 'r']
  else if c.toNat = 9 then [bs, 't']
  else if c.toNat = 11 then [bs, 'v']
  else if c.toNat < 32 ∨ c.toNat = 127 then
    [bs, 'x', hexDigit (c.toNat / 16), hexDigit (c.toNat % 16)]
  else [c]

/-- Go `strconv.Quote`: the text between double quotes, character by character. -/
def Quote (s : String) : String :=
  String.mk (Char.ofNat 34 :: s.data.foldr (fun c acc => quoteChar c ++ acc) [Char.ofNat 34])

/-- The error of `strconv.Atoi` on the text `s`: a `NumError` whose text quotes `s`. -/
def atoiError (s : String) (why : String) : GoError :=
  .base ("strconv.Atoi: parsing " ++ Quote s ++ ": " ++ why)

/-- Go `strconv.Atoi` on a 64-bit platform: an optional sign, then at least one decimal
digit, and the value must fit in an `int`. -/
def Atoi (s : String) : Except GoError Int :=
  let parse (neg : Bool) (ds : List Char) : Except GoError Int :=
    match ds with
    | [] => .error (atoiError s "invalid syntax")
    | _ =>
      match parseDigits ds 0 with
      | none => .error (atoiError s "invalid syntax")
      | some n =>
        let v : Int := if neg then -(n : Int) else (n : Int)
        if -(2 : Int) ^ 63 ≤ v ∧ v < (2 : Int) ^ 63 then .ok v
        else .error (atoiError s "value out of range")
  match s.data with
  | '-' :: ds => parse true ds
  | '+' :: ds => parse false ds
  | ds => parse false ds

/-- The Go conversion `int32(x)` of an `int`: the low 32 bits, signed. -/
def toInt32 (x : Int) : Int := (x + 2 ^ 31) % 2 ^ 32 - 2 ^ 31

/-- The Redis key `fmt.Sprintf("product:%d", pid)`. -/
def cacheKey (pid : Int) : String := "product:" ++ toString pid

/-- Redis `GET` on the contents. -/
def cacheGet (cache : List (String × String)) (key : String) : Option String :=
  (cache.find? fun kv => kv.1 == key).map Prod.snd

/-- Redis `SET` with no expiry: the key now holds the value. -/
def cacheSet (cache : List (String × String)) (key value : String) : List (String × String) :=
  (key, value) :: cache.filter fun kv => !(kv.1 == key)

/-- The function `fetchFromDigikala`. It fills `dkProduct` (a pointer in the source, so the
new contents are returned) and returns the `error` of the source. The error of the final
`json.Unmarshal` is assigned to `err` and the function then returns `nil`. -/
def fetchFromDigikala (f : DigikalaFetcher) (env : Collaborators) (w : World)
    (product : RankProduct) (dkProduct : DigikalaProduct) :
    (DigikalaProduct × Option GoError) × World :=
  match Atoi product.Id with
  | .error err => ((dkProduct, some err), w)
  | .ok pid =>
    let url := f.apiBaseUrl ++ "/" ++ toString pid ++ "/"
    let w1 : World := { w with upstreamCalls := w.upstreamCalls + 1 }
    match env.httpGet url with
    | .error err => ((dkProduct, some err), w1)
    | .ok resp =>
      if resp.Status ≠ "200 OK" then
        ((dkProduct, some (.base ("failed to fetch product " ++ product.Id ++ ". status: "
          ++ resp.Status))), w1)
      else
        let body := resp.Body
        let w2 : World :=
          match env.redisSetErr with
          | none => { w1 with cache := cacheSet w1.cache (cacheKey pid) body }
          | some _ => w1 -- logged
        let decoded := env.unmarshal body dkProduct
        ((decoded.1, none), w2)

/-- The method `Fetch`. The index expression `p.Images.Main.Url[0]` panics on an empty
slice. -/
def Fetch (f : DigikalaFetcher) (env : Collaborators) (w : World) (product : RankProduct) :
    GoResult Product × World :=
  match Atoi product.Id with
  | .error err => (.err err, w)
  | .ok pid =>
    let dkProduct := DigikalaProduct.zero
    let filled : (DigikalaProduct × Option GoError) × World :=
      match env.redisGetErr with
      | some _ => fetchFromDigikala f env w product dkProduct -- logged, then upstream
      | none =>
        match cacheGet w.cache (cacheKey pid) with
        | none => fetchFromDigikala f env w product dkProduct -- redis.Nil
        | some cache => (env.unmarshal cache dkProduct, w)
    match filled.1.2 with
    | some err => (.err err, filled.2)
    | none =>
      let p := filled.1.1.Data.Product
      if p.IsInactive then
        (.err (.base ("product " ++ product.Id ++ " is inactive")), filled.2)
      else
        match p.Images.Main.Url with
        | [] => (.panic "runtime error: index out of range [0] with length 0", filled.2)
        | imageUrl :: _ =>
          (.ok {
            Id := toInt32 pid
            Title := p.TitleFa
            Url := f.baseUrl ++ p.Url.Uri
            Status := p.Status
            ImageUrl := imageUrl
            Rate := ⟨p.Rating.Rate, p.Rating.Count⟩
            Categories := ToCategories f.baseUrl p.Breadcrumb
            Price := p.DefaultVariant.Price.SellingPrice
            Score := product.Score }, filled.2)

/-! ### Concrete collaborators, for evaluating `Fetch` -/

/-- A payload whose `rating.count` is a string where the struct wants a number. -/
def bodyBadCount : String :=
  "\x7b\"data\":\x7b\"product\":\x7b\"title_fa\":\"t\",\"images\":\x7b\"main\":\x7b\"url\":[\"u\"]\x7d\x7d,\"rating\":\x7b\"count\":\"x\"\x7d\x7d\x7d\x7d"

/-- What `encoding/json` does on four texts. On `bodyBadCount` it fills the fields that
fit and returns an `UnmarshalTypeError` for the one that does not (the Go type at the end
of its text is that of the absent field declaration, taken to be the `int32` of
`v1.Rating`). On the empty object it leaves the target as it is and returns no error. On
`not json` and on the empty text it returns a syntax error and leaves the target
untouched. No other text is given to this decoder; it is answered like the empty text. -/
def sampleUnmarshal (data : String) (v : DigikalaProduct) :
    DigikalaProduct × Option GoError :=
  if data = bodyBadCount then
    ({ v with Data.Product.TitleFa := "t", Data.Product.Images.Main.Url := ["u"] },
      some (.base "json: cannot unmarshal string into Go struct field DigikalaProduct.data.product.rating.count of type int32"))
  else if data = "\x7b\x7d" then (v, none)
  else if data = "not json" then
    (v, some (.base "invalid character 'o' in literal null (expecting 'u')"))
  else (v, some (.base "unexpected end of JSON input"))

/-- Healthy Redis, an upstream that answers `200 OK` with `body`, and `sampleUnmarshal`. -/
def sampleEnv (body : String) : Collaborators where
  redisGetErr := none
  redisSetErr := none
  httpGet := fun _ => .ok ⟨"200 OK", body⟩
  unmarshal := sampleUnmarshal

/-- A fetcher configuration. -/
def sampleFetcher : DigikalaFetcher := ⟨"https://www.digikala.com", "https://api.digikala.com/v1/product", 1, 2⟩

/-! ### Concrete attempts, for evaluating the worker -/

/-- Attempts that fail with a 502 twice and then succeed. -/
def flakyFetch (p : Product) (k : Nat) : Except GoError Product :=
  if k < 2 then .error (.base "failed to fetch product 7. status: 502 Bad Gateway") else .ok p

/-- A product to deliver in examples. -/
def sampleProduct : Product := ⟨7, "t", "u", "marketable", "i", ⟨0, 0⟩, [], 100, 3⟩

/-- A `Fetch` that always fails because the deadline of the context has passed. -/
def deadlineFetch (_ : Nat) : Except GoError Product :=
  .error (.base "Get \"https://api.digikala.com/v1/product/1/\": context deadline exceeded")


/-! ## The semaphore `f.sem` -/

/-- A send `f.sem <- emp` on the channel of capacity `K` that holds `len` tokens: it goes
through when the buffer has room and blocks (`none`) when the buffer is full. The only
receives on `f.sem` are the deferred ones of admitted workers, whose own token is in the
buffer, so a receive never waits and a send never meets a waiting receiver. -/
def semSend (K len : Nat) : Option Nat := if len < K then some (len + 1) else none

/-- A receive `<-f.sem`: it takes a token when there is one and blocks otherwise. -/
def semRecv (len : Nat) : Option Nat := if 0 < len then some (len - 1) else none

/-- Where a call of `singleAsyncFetch` stands with respect to the semaphore: blocked at
the send of line 159, admitted (its goroutine runs), or past the deferred receive. -/
inductive TaskPc where
  | waiting
  | admitted
  | released
  deriving DecidableEq, Repr

/-- The dispatcher of one `DigikalaFetcher`: the tokens in `f.sem` and every call of
`singleAsyncFetch` made so far, whichever `AsyncFetch` invocation made it. -/
structure Dispatcher where
  sem : Nat
  tasks : List TaskPc
  deriving DecidableEq, Repr

/-- The dispatcher made by `NewDigikalaFetcher`: an empty channel, no call yet. -/
def Dispatcher.new : Dispatcher := ⟨0, []⟩

/-- The events of a dispatcher: an item is submitted (`singleAsyncFetch` is called), the
send of call `j` goes through and its goroutine starts, the goroutine of call `j` exits
through its deferred receive. -/
inductive DispatcherAction where
  | submit
  | acquire (j : Nat)
  | release (j : Nat)
  deriving DecidableEq, Repr

/-- One event on a dispatcher of capacity `K`; `none` when the event cannot happen. -/
def Dispatcher.step (K : Nat) (d : Dispatcher) : DispatcherAction → Option Dispatcher
  | .submit => some { d with tasks := d.tasks ++ [.waiting] }
  | .acquire j =>
      match d.tasks[j]? with
      | some .waiting => (semSend K d.sem).map fun len => ⟨len, d.tasks.set j .admitted⟩
      | _ => none
  | .release j =>
      match d.tasks[j]? with
      | some .admitted => (semRecv d.sem).map fun len => ⟨len, d.tasks.set j .released⟩
      | _ => none

/-- A sequence of events. -/
def Dispatcher.run (K : Nat) : Dispatcher → List DispatcherAction → Option Dispatcher
  | d, [] => some d
  | d, a :: as => (d.step K a).bind fun d' => Dispatcher.run K d' as

/-- The number of workers admitted and not yet released. -/
def Dispatcher.running (d : Dispatcher) : Nat :=
  (d.tasks.map fun t => if t = .admitted then 1 else 0).sum

/-! ## `AsyncFetch`: launcher, workers and consumer -/

/-- The launcher goroutine (lines 118-127): at the `select` of the loop, blocked in
`singleAsyncFetch` at the send on `f.sem`, or returned. -/
inductive LauncherPc where
  | select
  | acquire
  | done
  deriving DecidableEq, Repr

/-- The worker goroutine of one item (lines 160-197): not started, running `Fetch` and its
retries, blocked at the send on its response channel, past the send with its deferred
function still to run, or exited (token given back, response channel closed). -/
inductive WorkerPc where
  | idle
  | fetching
  | sending
  | delivered
  | exited
  deriving DecidableEq, Repr

/-- The consumer goroutine (lines 129-152): at the test at the head of the loop, blocked
in its `select`, blocked at `resp <- p` with `p` in hand, or returned. -/
inductive ConsumerPc where
  | head
  | select
  | emit (p : ProductWithError)
  | done
  deriving DecidableEq, Repr

/-- One invocation `AsyncFetch(ctx, products, count)` on a fetcher whose semaphore has
capacity `K`. `outcomes[j]` is the value that the worker of `products[j]` sends. -/
structure AsyncFetch where
  K : Nat
  outcomes : List ProductWithError
  count : Int
  deriving DecidableEq, Repr

/-- The state of an invocation. `li` is the loop variable of the launcher, `i` and `c` are
the variables of the consumer, `sem` the number of tokens in `f.sem`, `cancelCalled`
whether `cancel()` of `innerCtx` has run, `ctxDone` whether the caller's `ctx` is done,
`emitted` the values sent on `resp` so far, `respClosed` whether `resp` is closed. -/
structure State where
  launcher : LauncherPc
  li : Nat
  workers : List WorkerPc
  sem : Nat
  consumer : ConsumerPc
  i : Nat
  c : Int
  cancelCalled : Bool
  ctxDone : Bool
  emitted : List ProductWithError
  respClosed : Bool
  deriving DecidableEq, Repr

/-- The state when `AsyncFetch` returns `resp`, on a fetcher whose semaphore holds `taken`
tokens at that moment: both goroutines at their first statement, no worker of this
invocation started. `f.sem` is made once, in `NewDigikalaFetcher`, and every invocation
on the fetcher uses it, so the tokens it holds are those of workers of earlier
invocations; none of them is given back in this state space (they are the tokens of
workers blocked at their send for good). -/
def AsyncFetch.initWith (cfg : AsyncFetch) (taken : Nat) : State where
  launcher := .select
  li := 0
  workers := List.replicate cfg.outcomes.length .idle
  sem := taken
  consumer := .head
  i := 0
  c := 0
  cancelCalled := false
  ctxDone := false
  emitted := []
  respClosed := false

/-- The state when `AsyncFetch` returns `resp` on a fresh dispatcher: no token of `f.sem`
is taken. -/
def AsyncFetch.init (cfg : AsyncFetch) : State := cfg.initWith 0

/-- Whether `innerCtx.Done()` is closed: `innerCtx` is `context.WithCancel(ctx)`. -/
def State.innerDone (s : State) : Bool := s.cancelCalled || s.ctxDone

/-- The consumer returns: the deferred `cancel()` and `close(resp)` run. -/
def State.consumerReturn (s : State) : State :=
  { s with consumer := .done, cancelCalled := true, respClosed := true }

/-- The events of an invocation, one per goroutine step between two blocking points. -/
inductive Action where
  /-- The launcher moves: the `select` of its loop, or the send on `f.sem` followed by the
  `go` statement. -/
  | launcher
  /-- The worker of item `j` finishes `Fetch` and its retries and reaches its send. -/
  | workerFetch (j : Nat)
  /-- The send of the worker of item `i` meets the receive `p := <-responses[i]`. -/
  | handoff
  /-- The deferred function of the worker of item `j`: `<-f.sem`, `close(resp)`. -/
  | workerExit (j : Nat)
  /-- The consumer moves without receiving: the test at the head of its loop, or the
  send `resp <- p` taken by the caller followed by the count. -/
  | consumer
  /-- The `select` of the consumer takes `<-ctx.Done()`. -/
  | consumerCtxDone
  /-- The `select` of the consumer receives `nil` from a closed response channel. -/
  | consumerRecvClosed
  /-- The caller cancels `ctx`, or its deadline passes. -/
  | ctxCancel
  deriving DecidableEq, Repr

/-- One event of the invocation `cfg` in state `s`; `none` when it cannot happen. -/
def AsyncFetch.step (cfg : AsyncFetch) (s : State) : Action → Option State
  | .launcher =>
      match s.launcher with
      | .select =>
          if s.li < cfg.outcomes.length then
            if s.innerDone then some { s with launcher := .done }
            else some { s with launcher := .acquire }
          else some { s with launcher := .done }
      | .acquire =>
          (semSend cfg.K s.sem).map fun len =>
            { s with sem := len, workers := s.workers.set s.li .fetching, li := s.li + 1,
                     launcher := .select }
      | .done => none
  | .workerFetch j =>
      match s.workers[j]? with
      | some .fetching => some { s with workers := s.workers.set j .sending }
      | _ => none
  | .handoff =>
      match s.consumer, s.workers[s.i]?, cfg.outcomes[s.i]? with
      | .select, some .sending, some p =>
          some { s with workers := s.workers.set s.i .delivered, i := s.i + 1,
                        consumer := .emit p }
      | _, _, _ => none
  | .workerExit j =>
      match s.workers[j]? with
      | some .delivered =>
          (semRecv s.sem).map fun len => { s with sem := len, workers := s.workers.set j .exited }
      | _ => none
  | .consumer =>
      match s.consumer with
      | .head =>
          if s.c ≥ cfg.count ∨ s.i ≥ cfg.outcomes.length then some s.consumerReturn
          else some { s with consumer := .select }
      | .emit p =>
          some { s with emitted := s.emitted ++ [p],
                        c := if p.Product.isSome then s.c + 1 else s.c,
                        consumer := .head }
      | _ => none
  | .consumerCtxDone =>
      match s.consumer with
      | .select => if s.ctxDone then some s.consumerReturn else none
      | _ => none
  | .consumerRecvClosed =>
      match s.consumer, s.workers[s.i]? with
      | .select, some .exited => some s.consumerReturn
      | _, _ => none
  | .ctxCancel => if s.ctxDone then none else some { s with ctxDone := true }

/-- A sequence of events. -/
def AsyncFetch.run (cfg : AsyncFetch) : State → List Action → Option State
  | s, [] => some s
  | s, a :: as => (cfg.step s a).bind fun s' => AsyncFetch.run cfg s' as

/-- The states an invocation on a fresh dispatcher can reach from its initial state. -/
def AsyncFetch.Reachable (cfg : AsyncFetch) (s : State) : Prop :=
  ∃ acts, cfg.run cfg.init acts = some s

/-- The number of successful outcomes (`Product != nil`) in a sequence. -/
def successes (l : List ProductWithError) : Nat :=
  (l.map fun p => if p.Product.isSome then 1 else 0).sum

/-- The number of workers that hold a token of `f.sem`. -/
def State.holding (s : State) : Nat :=
  (s.workers.map fun w =>
    if w = .fetching ∨ w = .sending ∨ w = .delivered then 1 else 0).sum

/-- A successful outcome. -/
def okOutcome (id : Int) : ProductWithError :=
  ⟨some ⟨id, "t", "u", "marketable", "i", ⟨0, 0⟩, [], 100, 3⟩, none⟩

/-- A failed outcome. -/
def errOutcome : ProductWithError :=
  ⟨none, some (.wrap (.base "product 2 is inactive") "failed to fetch product 2")⟩

/-! ### Invariants of an invocation -/

/-- What holds of launcher, workers and semaphore in every reachable state: the workers
below `i` have handed their outcome over, those from `i` up to `li` are running and hold a
token, those from `li` on are not started; the tokens in the channel are those of the
workers that hold one. -/
structure InvW (cfg : AsyncFetch) (s : State) : Prop where
  len : s.workers.length = cfg.outcomes.length
  i_le : s.i ≤ s.li
  li_le : s.li ≤ cfg.outcomes.length
  acq : s.launcher = .acquire → s.li < cfg.outcomes.length
  ldone : s.launcher = .done → s.li = cfg.outcomes.length ∨ s.innerDone = true
  wk : ∀ j w, s.workers[j]? = some w →
    (j < s.i → w = .delivered ∨ w = .exited) ∧
    (s.i ≤ j → j < s.li → w = .fetching ∨ w = .sending) ∧
    (s.li ≤ j → w = .idle)
  sem : s.holding = s.sem ∧ s.sem ≤ cfg.K

/-- What holds of the consumer in every reachable state: what it has emitted is the
outcomes of the first items, in order; `c` counts the successes among them and never
passes `count`; it returns only for one of the three reasons of the source. -/
structure InvC (cfg : AsyncFetch) (s : State) : Prop where
  pre : s.emitted = cfg.outcomes.take s.emitted.length
  elen_le : s.emitted.length ≤ cfg.outcomes.length
  inhand : ∀ p, s.consumer = .emit p →
    s.emitted.length + 1 = s.i ∧ cfg.outcomes[s.emitted.length]? = some p ∧ s.c < cfg.count
  elen : (∀ p, s.consumer ≠ .emit p) → s.emitted.length = s.i
  sel : s.consumer = .select → s.i < cfg.outcomes.length ∧ s.c < cfg.count
  c : s.c = (successes s.emitted : Int)
  cdone : s.consumer = .done →
    s.ctxDone = true ∨ s.c ≥ cfg.count ∨ s.i ≥ cfg.outcomes.length
  cancel : s.cancelCalled = true ↔ s.consumer = .done
  closed : s.respClosed = true ↔ s.consumer = .done
  cle : 0 ≤ cfg.count → s.c ≤ cfg.count
  last : ∀ j, j < s.emitted.length → (successes (s.emitted.take j) : Int) < cfg.count

/-! ### A bound on the length of runs -/

/-- The number of steps a worker still has before it exits, with the step that starts it
counted on the launcher's side. -/
def WorkerPc.rank : WorkerPc → Nat
  | .idle => 3
  | .fetching => 3
  | .sending => 2
  | .delivered => 1
  | .exited => 0

/-- An upper bound on the number of events that can still happen in a state. -/
def State.potential (cfg : AsyncFetch) (s : State) : Nat :=
  (match s.launcher with
    | .select => 2 * (cfg.outcomes.length - s.li) + 1
    | .acquire => 2 * (cfg.outcomes.length - s.li)
    | .done => 0)
  + (s.workers.map WorkerPc.rank).sum
  + (match s.consumer with
    | .head => 3 * (cfg.outcomes.length - s.i) + 3
    | .select => 3 * (cfg.outcomes.length - s.i) + 2
    | .emit _ => 3 * (cfg.outcomes.length - s.i) + 4
    | .done => 0)
  + (if s.ctxDone then 0 else 1)

/-! ### Concrete invocations, for evaluating the transition system -/

/-- Four items, the second of which fails, two successes wanted, capacity two. -/
def quotaCfg : AsyncFetch := ⟨2, [okOutcome 1, errOutcome, okOutcome 3, okOutcome 4], 2⟩

/-- A run of `quotaCfg` in which the worker of item 1 finishes before that of item 0. -/
def quotaTrace : List Action :=
  [.launcher, .launcher, .launcher, .launcher, .launcher, .workerFetch 1, .workerFetch 0,
   .consumer, .handoff, .consumer, .workerExit 0, .launcher, .consumer, .handoff, .consumer,
   .consumer, .workerFetch 2, .handoff, .consumer, .consumer]

/-- Two successful items, one success wanted, capacity two. -/
def leakCfg : AsyncFetch := ⟨2, [okOutcome 1, okOutcome 2], 1⟩

/-- A run of `leakCfg`: both workers are started, the consumer takes the first outcome and
returns, the first worker exits, the caller cancels. -/
def leakTrace : List Action :=
  [.launcher, .launcher, .launcher, .launcher, .launcher, .workerFetch 0, .workerFetch 1,
   .consumer, .handoff, .consumer, .consumer, .workerExit 0, .ctxCancel]

/-- Two successful items, one success wanted, capacity one. -/
def raceCfg : AsyncFetch := ⟨1, [okOutcome 1, okOutcome 2], 1⟩

/-- A run of `raceCfg`: the launcher starts item 0 and blocks at the send on `f.sem` for
item 1; the consumer takes the outcome of item 0 and returns, which cancels `innerCtx`;
the worker of item 0 gives its token back. -/
def raceTrace : List Action :=
  [.launcher, .launcher, .launcher, .workerFetch 0, .consumer, .handoff, .consumer,
   .consumer, .workerExit 0]

/-- The state `quotaTrace` ends in. -/
def quotaFinal : State :=
  ⟨.select, 3, [.exited, .delivered, .delivered, .idle], 2, .done, 3, 2, true, false,
    [okOutcome 1, errOutcome, okOutcome 3], true⟩

/-- The state `leakTrace` ends in: the worker of item 1 is blocked at its send and holds a
token; everything else has returned. -/
def leakStuck : State :=
  ⟨.done, 2, [.exited, .sending], 1, .done, 1, 1, true, true, [okOutcome 1], true⟩

/-- The state `raceTrace` ends in: `innerCtx` is canceled, the launcher is at the send on
`f.sem` for item 1, and the channel has room again. -/
def raceBlocked : State :=
  ⟨.acquire, 1, [.exited, .idle], 0, .done, 1, 1, true, false, [okOutcome 1], true⟩

/-- The state after the launcher's send went through: the worker of item 1 runs. -/
def raceLaunched : State :=
  ⟨.select, 2, [.exited, .fetching], 1, .done, 1, 1, true, false, [okOutcome 1], true⟩

/-- The state of `raceCfg` in which everything has come to rest: the worker of item 1,
started after the cancellation, is blocked at its send and holds the only token, and the
caller's context is done. -/
def raceStuck : State :=
  ⟨.done, 2, [.exited, .sending], 1, .done, 1, 1, true, true, [okOutcome 1], true⟩

/-- While the attempts `r .. m-1` fail transiently the loop goes on to attempt `m`, and
attempt `m` decides what is delivered. -/
theorem retryLoop_transient (productId : String) (m : Nat)
    (fetch : Nat → Except GoError Product) :
    ∀ (d r fuel : Nat), r + d = m → d + 1 ≤ fuel →
      (∀ k, r ≤ k → k < m → ∃ e, fetch k = .error e ∧ Transient e) →
      (∀ e, fetch m = .error e → Transient e) →
      ∃ run, retryLoop productId (m : Int) fetch fuel (fetch r) (r : Int) (r + 1) r = some run ∧
        run.fetchCalls = m + 1 ∧
        (∀ p, fetch m = .ok p → run.delivered = ⟨some p, none⟩ ∧ run.sleeps = m) ∧
        (∀ e, fetch m = .error e → run.sleeps = m + 1 ∧ run.delivered = ⟨none, some (.wrap e
          ("failed to fetch product " ++ productId ++ " after " ++ toString (m : Int)
            ++ " retries"))⟩) := by
  intro d
  induction d with
  | zero =>
    intro r fuel hr hfuel _ hlast
    obtain rfl : r = m := by omega
    obtain ⟨fuel, rfl⟩ : ∃ f, fuel = f + 1 := ⟨fuel - 1, by omega⟩
    cases hf : fetch r with
    | ok p =>
      simp only [retryLoop]
      refine ⟨_, rfl, rfl, ?_, ?_⟩
      · intro p' hp'
        cases hp'
        exact ⟨rfl, rfl⟩
      · intro e he
        cases he
    | error e =>
      obtain ⟨h1, h2, _⟩ := hlast e hf
      simp only [retryLoop, h1, h2, ge_iff_le, le_refl, if_true, if_false, Bool.false_eq_true]
      refine ⟨_, rfl, rfl, ?_, ?_⟩
      · intro p hp
        cases hp
      · intro e' he'
        cases he'
        exact ⟨rfl, rfl⟩
  | succ d ih =>
    intro r fuel hr hfuel hfail hlast
    obtain ⟨fuel, rfl⟩ : ∃ f, fuel = f + 1 := ⟨fuel - 1, by omega⟩
    obtain ⟨e, he, h1, h2, _⟩ := hfail r (le_refl r) (by omega)
    have hlt : ¬ ((m : Int) ≤ (r : Int)) := by omega
    obtain ⟨run, hrun, hrest⟩ := ih (r + 1) fuel (by omega) (by omega)
      (fun k hk hkm => hfail k (by omega) hkm) hlast
    refine ⟨run, ?_, hrest⟩
    rw [he]
    simp only [retryLoop, h1, h2, ge_iff_le, hlt, if_false, Bool.false_eq_true]
    exact_mod_cast hrun

/-- The retry loop never runs out of fuel: the worker always delivers. -/
theorem retryLoop_total (productId : String) (maxRetry : Int)
    (fetch : Nat → Except GoError Product) :
    ∀ (fuel : Nat) (cur : Except GoError Product) (retryCount : Int) (calls sleeps : Nat),
      0 < fuel → maxRetry - retryCount < fuel →
      ∃ run, retryLoop productId maxRetry fetch fuel cur retryCount calls sleeps = some run := by
  intro fuel
  induction fuel with
  | zero =>
    intro cur retryCount calls sleeps h
    omega
  | succ fuel ih =>
    intro cur retryCount calls sleeps _ h
    cases cur with
    | ok p =>
      simp only [retryLoop]
      exact ⟨_, rfl⟩
    | error e =>
      simp only [retryLoop]
      split
      · exact ⟨_, rfl⟩
      · split
        · exact ⟨_, rfl⟩
        · split
          · exact ⟨_, rfl⟩
          · rename_i hlt
            exact ih _ _ _ _ (by omega) (by omega)

/-- The worker goroutine always sends exactly one value, whatever `Fetch` answers. -/
theorem singleAsyncFetch_total (productId : String) (maxRetry : Int)
    (fetch : Nat → Except GoError Product) :
    ∃ run, singleAsyncFetch productId maxRetry fetch = some run := by
  unfold singleAsyncFetch
  exact retryLoop_total productId maxRetry fetch _ _ _ _ _ (by omega) (by omega)

/-- An attempt to use as the failing one in examples. -/
theorem flaky_transient : Transient (.base "failed to fetch product 7. status: 502 Bad Gateway") := by
  decide

/-- C4. Retry budget of `singleAsyncFetch`: when the first `maxRetry` attempts fail
transiently (and attempt `maxRetry + 1`, if it fails, fails transiently too), the worker
delivers, calls `Fetch` at most `maxRetry + 1` times, and what it delivers is decided by
attempt `maxRetry + 1`: its product with no error if it succeeds, an error that wraps its
failure and reports `maxRetry` retries if it fails. -/
theorem singleAsyncFetch_retry_budget (productId : String) (maxRetry : Nat)
    (fetch : Nat → Except GoError Product)
    (hfail : ∀ k, k < maxRetry → ∃ e, fetch k = .error e ∧ Transient e)
    (hlast : ∀ e, fetch maxRetry = .error e → Transient e) :
    ∃ run, singleAsyncFetch productId (maxRetry : Int) fetch = some run ∧
      run.fetchCalls ≤ maxRetry + 1 ∧
      (∀ p, fetch maxRetry = .ok p → run.delivered = ⟨some p, none⟩) ∧
      (∀ e, fetch maxRetry = .error e → run.delivered = ⟨none, some (.wrap e
        ("failed to fetch product " ++ productId ++ " after " ++ toString (maxRetry : Int)
          ++ " retries"))⟩) := by
  obtain ⟨run, hrun, hcalls, hok, herr⟩ :=
    retryLoop_transient productId maxRetry fetch maxRetry 0 (maxRetry + 1) (by omega)
      (by omega) (fun k _ hk => hfail k hk) hlast
  refine ⟨run, ?_, by omega, fun p hp => (hok p hp).1, fun e he => (herr e he).2⟩
  unfold singleAsyncFetch
  simpa using hrun

/-- The retry budget at `maxRetry = 2` with two 502 answers and then a success. -/
theorem singleAsyncFetch_retry_budget_witness :
    (∀ k, k < 2 → ∃ e, flakyFetch sampleProduct k = .error e ∧ Transient e) ∧
    ∃ run, singleAsyncFetch "7" ((2 : Nat) : Int) (flakyFetch sampleProduct) = some run ∧
      run.fetchCalls ≤ 2 + 1 ∧
      (∀ p, flakyFetch sampleProduct 2 = .ok p → run.delivered = ⟨some p, none⟩) ∧
      (∀ e, flakyFetch sampleProduct 2 = .error e → run.delivered = ⟨none, some (.wrap e
        ("failed to fetch product " ++ "7" ++ " after " ++ toString ((2 : Nat) : Int)
          ++ " retries"))⟩) :=
  have h : ∀ k, k < 2 → ∃ e, flakyFetch sampleProduct k = .error e ∧ Transient e := by
    intro k hk
    exact ⟨_, by simp [flakyFetch, hk], flaky_transient⟩
  ⟨h, singleAsyncFetch_retry_budget "7" 2 (flakyFetch sampleProduct) h
    (by intro e he; simp [flakyFetch] at he)⟩

/-- The two terminal classes the worker recognises: an error whose text ends in
"is inactive" or in "context canceled" is delivered wrapped with the item id at once:
one `Fetch` call, no sleep. -/
theorem singleAsyncFetch_terminal_immediate (productId : String) (maxRetry : Int)
    (fetch : Nat → Except GoError Product) (e : GoError) (h0 : fetch 0 = .error e)
    (hterm : HasSuffix e.Error "is inactive" = true ∨
      HasSuffix e.Error "context canceled" = true) :
    singleAsyncFetch productId maxRetry fetch =
      some ⟨⟨none, some (.wrap e ("failed to fetch product " ++ productId))⟩, 1, 0⟩ := by
  unfold singleAsyncFetch
  rw [h0]
  simp only [retryLoop]
  rcases hterm with h | h
  · simp [h]
  · simp [h]

/-- C5. At a deadline-exceeded error the worker does not return at once: with
`maxRetry = 1` it sleeps, calls `Fetch` a second time, sleeps again, and delivers an error
that reports one retry, although the error is of a class the claim calls terminal. -/
theorem singleAsyncFetch_deadline_exceeded_retried :
    (∃ e, deadlineFetch 0 = .error e ∧ Terminal e) ∧
    singleAsyncFetch "1" 1 deadlineFetch = some ⟨⟨none, some (.wrap
      (.base "Get \"https://api.digikala.com/v1/product/1/\": context deadline exceeded")
      "failed to fetch product 1 after 1 retries")⟩, 2, 2⟩ := by
  refine ⟨⟨_, rfl, by decide⟩, by decide⟩

/-! ## `Fetch` -/

/-- C6. The cache round trip breaks on a `200 OK` body that `json.Unmarshal` decodes with
an error: the first `Fetch` (a cache miss) discards that error, writes the body to the
cache and returns a product; the second `Fetch` of the same candidate reads the body back,
issues no upstream call, and returns the decode error instead of the product. -/
theorem Fetch_round_trip_broken :
    cacheGet ([] : List (String × String)) (cacheKey 1) = none ∧
    (Fetch sampleFetcher (sampleEnv bodyBadCount) ⟨[], 0⟩ ⟨"1", 5⟩).1 =
      .ok ⟨1, "t", "https://www.digikala.com", "", "u", ⟨0, 0⟩, [], 0, 5⟩ ∧
    (Fetch sampleFetcher (sampleEnv bodyBadCount) ⟨[], 0⟩ ⟨"1", 5⟩).2 =
      ⟨[(cacheKey 1, bodyBadCount)], 1⟩ ∧
    Fetch sampleFetcher (sampleEnv bodyBadCount) ⟨[(cacheKey 1, bodyBadCount)], 1⟩ ⟨"1", 5⟩ =
      (.err (.base "json: cannot unmarshal string into Go struct field DigikalaProduct.data.product.rating.count of type int32"),
        ⟨[(cacheKey 1, bodyBadCount)], 1⟩) := by
  decide

/-- C10. `Fetch` is not total: on a candidate with a numeric id and a payload with no main
image URL (here the empty JSON object, from the upstream or from the cache) the index
expression `Url[0]` panics, so neither a product nor an error is returned; the third case
is a body that fails to decode, whose error `fetchFromDigikala` discards. -/
theorem Fetch_panics_on_empty_image_list :
    (Fetch sampleFetcher (sampleEnv "\x7b\x7d") ⟨[], 0⟩ ⟨"1", 5⟩).1 =
      .panic "runtime error: index out of range [0] with length 0" ∧
    (Fetch sampleFetcher (sampleEnv "\x7b\x7d") ⟨[(cacheKey 1, "\x7b\x7d")], 0⟩ ⟨"1", 5⟩).1 =
      .panic "runtime error: index out of range [0] with length 0" ∧
    (Fetch sampleFetcher (sampleEnv "not json") ⟨[], 0⟩ ⟨"1", 5⟩).1 =
      .panic "runtime error: index out of range [0] with length 0" := by
  decide

/-! ## The dispatcher -/

/-- Replacing one entry of a list changes the sum of a measure over the list by the
difference of the two entries. -/
theorem sum_map_set {α : Type} (f : α → Nat) :
    ∀ (l : List α) (j : Nat) (a b : α), l[j]? = some a →
      ((l.set j b).map f).sum + f a = (l.map f).sum + f b
  | [], j, a, b, h => by simp at h
  | x :: xs, 0, a, b, h => by
      simp only [List.getElem?_cons_zero, Option.some.injEq] at h
      subst h
      simp only [List.set_cons_zero, List.map_cons, List.sum_cons]
      omega
  | x :: xs, j + 1, a, b, h => by
      simp only [List.getElem?_cons_succ] at h
      have ih := sum_map_set f xs j a b h
      simp only [List.set_cons_succ, List.map_cons, List.sum_cons]
      omega

/-- A dispatcher step keeps the tokens in the channel equal to the number of workers
admitted and not released, and within the capacity. -/
theorem Dispatcher.step_invariant (K : Nat) (d d' : Dispatcher) (a : DispatcherAction)
    (h : d.step K a = some d') (hinv : d.running = d.sem ∧ d.sem ≤ K) :
    d'.running = d'.sem ∧ d'.sem ≤ K := by
  obtain ⟨hrun, hle⟩ := hinv
  cases a with
  | submit =>
    simp only [Dispatcher.step, Option.some.injEq] at h
    subst h
    simpa [Dispatcher.running] using ⟨hrun, hle⟩
  | acquire j =>
    simp only [Dispatcher.step] at h
    split at h
    · rename_i hj
      simp only [semSend] at h
      split at h
      · simp only [Option.map_some', Option.some.injEq] at h
        subst h
        have hsum : ((d.tasks.set j .admitted).map
            fun t : TaskPc => if t = .admitted then 1 else 0).sum + 0
            = (d.tasks.map fun t : TaskPc => if t = .admitted then 1 else 0).sum + 1 :=
          sum_map_set _ d.tasks j .waiting .admitted hj
        simp only [Dispatcher.running] at hrun ⊢
        constructor <;> omega
      · simp at h
    · simp at h
  | release j =>
    simp only [Dispatcher.step] at h
    split at h
    · rename_i hj
      simp only [semRecv] at h
      split at h
      · simp only [Option.map_some', Option.some.injEq] at h
        subst h
        have hsum : ((d.tasks.set j .released).map
            fun t : TaskPc => if t = .admitted then 1 else 0).sum + 1
            = (d.tasks.map fun t : TaskPc => if t = .admitted then 1 else 0).sum + 0 :=
          sum_map_set _ d.tasks j .admitted .released hj
        simp only [Dispatcher.running] at hrun ⊢
        constructor <;> omega
      · simp at h
    · simp at h

/-- The invariant of `Dispatcher.step_invariant` holds along every sequence of events. -/
theorem Dispatcher.run_invariant (K : Nat) :
    ∀ (acts : List DispatcherAction) (d d' : Dispatcher), Dispatcher.run K d acts = some d' →
      (d.running = d.sem ∧ d.sem ≤ K) → d'.running = d'.sem ∧ d'.sem ≤ K
  | [], d, d', h, hinv => by
      simp only [Dispatcher.run, Option.some.injEq] at h
      subst h
      exact hinv
  | a :: as, d, d', h, hinv => by
      simp only [Dispatcher.run] at h
      cases hs : d.step K a with
      | none => simp [hs] at h
      | some d1 =>
        simp only [hs, Option.some_bind] at h
        exact Dispatcher.run_invariant K as d1 d' h (Dispatcher.step_invariant K d d1 a hs hinv)

/-- C8. Bounded parallelism: in every state that a dispatcher of capacity `K` reaches from
the one `NewDigikalaFetcher` makes, however many items are submitted, the number of
workers admitted and not yet released is the number of tokens in `f.sem`, and it is at
most `K`. -/
theorem Dispatcher_bounded_parallelism (K : Nat) (acts : List DispatcherAction)
    (d : Dispatcher) (h : Dispatcher.run K Dispatcher.new acts = some d) :
    d.running = d.sem ∧ d.running ≤ K := by
  have := Dispatcher.run_invariant K acts Dispatcher.new d h
    ⟨by simp [Dispatcher.running, Dispatcher.new], by simp [Dispatcher.new]⟩
  exact ⟨this.1, by omega⟩

/-- Three items on a dispatcher of capacity 2: two are admitted, the third waits. -/
theorem Dispatcher_bounded_parallelism_witness :
    Dispatcher.run 2 Dispatcher.new
        [.submit, .submit, .submit, .acquire 0, .acquire 1, .release 0, .acquire 2] =
      some ⟨2, [.released, .admitted, .admitted]⟩ ∧
    (Dispatcher.step 2 ⟨2, [.admitted, .admitted, .waiting]⟩ (.acquire 2) = none) ∧
    (Dispatcher.running ⟨2, [.released, .admitted, .admitted]⟩ = 2 ∧
      Dispatcher.running ⟨2, [.released, .admitted, .admitted]⟩ ≤ 2) :=
  ⟨by decide, by decide, Dispatcher_bounded_parallelism 2
    [.submit, .submit, .submit, .acquire 0, .acquire 1, .release 0, .acquire 2]
    ⟨2, [.released, .admitted, .admitted]⟩ (by decide)⟩

/-! ## `AsyncFetch` -/

/-- The invariant `InvW` holds when `AsyncFetch` returns. -/
theorem InvW_init (cfg : AsyncFetch) : InvW cfg cfg.init := by
  refine ⟨by simp [AsyncFetch.init, AsyncFetch.initWith], by simp [AsyncFetch.init, AsyncFetch.initWith], by simp [AsyncFetch.init, AsyncFetch.initWith],
    by simp [AsyncFetch.init, AsyncFetch.initWith], by simp [AsyncFetch.init, AsyncFetch.initWith], ?_, by simp [AsyncFetch.init, AsyncFetch.initWith, State.holding]⟩
  intro j w h
  simp only [AsyncFetch.init, AsyncFetch.initWith, List.getElem?_replicate] at h
  split at h
  · simp only [Option.some.injEq] at h
    subst h
    simp [AsyncFetch.init, AsyncFetch.initWith]
  · simp at h

/-- Every event keeps `InvW`. -/
theorem InvW_step (cfg : AsyncFetch) (s s' : State) (a : Action)
    (h : cfg.step s a = some s') (hinv : InvW cfg s) : InvW cfg s' := by
  obtain ⟨hlen, hile, hlile, hacq, hldone, hwk, hsem, hsemle⟩ := hinv
  cases a with
  | launcher =>
    simp only [AsyncFetch.step] at h
    split at h
    · split at h
      · split at h
        · simp only [Option.some.injEq] at h
          subst h
          exact ⟨hlen, hile, hlile, by simp, fun _ => Or.inr (by assumption), hwk, hsem, hsemle⟩
        · simp only [Option.some.injEq] at h
          subst h
          exact ⟨hlen, hile, hlile, fun _ => by assumption, by simp, hwk, hsem, hsemle⟩
      · simp only [Option.some.injEq] at h
        subst h
        exact ⟨hlen, hile, hlile, by simp, fun _ => Or.inl (by simp only; omega), hwk, hsem, hsemle⟩
    · rename_i hl
      have hlt := hacq hl
      simp only [semSend] at h
      split at h
      · simp only [Option.map_some', Option.some.injEq] at h
        subst h
        have hidle : s.workers[s.li]? = some .idle := by
          have hx : s.li < s.workers.length := by omega
          have := hwk s.li _ (List.getElem?_eq_getElem hx)
          rw [List.getElem?_eq_getElem hx, this.2.2 (le_refl _)]
        have hsum : ((s.workers.set s.li .fetching).map fun w : WorkerPc =>
              if w = .fetching ∨ w = .sending ∨ w = .delivered then 1 else 0).sum + 0
            = (s.workers.map fun w : WorkerPc =>
              if w = .fetching ∨ w = .sending ∨ w = .delivered then 1 else 0).sum + 1 :=
          sum_map_set _ s.workers s.li .idle .fetching hidle
        refine ⟨by simpa using hlen, by simp only; omega, by simp only; omega, by simp, by simp,
          ?_, ?_, by simp only; omega⟩
        · intro j w hj
          dsimp only at hj ⊢
          simp only [List.getElem?_set] at hj
          split at hj
          · rename_i hjeq
            split at hj
            · simp only [Option.some.injEq] at hj
              subst hj
              refine ⟨fun _ => by omega, fun _ _ => Or.inl rfl, fun _ => by omega⟩
            · simp at hj
          · have := hwk j w hj
            refine ⟨this.1, fun h1 h2 => this.2.1 h1 (by omega), fun h1 => this.2.2 (by omega)⟩
        · simp only [State.holding] at hsem ⊢
          omega
      · simp at h
    · simp at h
  | workerFetch j =>
    simp only [AsyncFetch.step] at h
    split at h
    · rename_i hj
      simp only [Option.some.injEq] at h
      subst h
      have hpos := hwk j _ hj
      have hsum : ((s.workers.set j .sending).map fun w : WorkerPc =>
            if w = .fetching ∨ w = .sending ∨ w = .delivered then 1 else 0).sum + 1
          = (s.workers.map fun w : WorkerPc =>
            if w = .fetching ∨ w = .sending ∨ w = .delivered then 1 else 0).sum + 1 :=
        sum_map_set _ s.workers j .fetching .sending hj
      refine ⟨by simpa using hlen, hile, hlile, hacq, hldone, ?_, ?_, hsemle⟩
      · intro k w hk
        dsimp only at hk ⊢
        simp only [List.getElem?_set] at hk
        split at hk
        · rename_i hjk
          split at hk
          · simp only [Option.some.injEq] at hk
            subst hk
            subst hjk
            refine ⟨fun h1 => ?_, fun _ _ => Or.inr rfl, fun h1 => ?_⟩
            · have := hpos.1 h1
              simp at this
            · have := hpos.2.2 h1
              simp at this
          · simp at hk
        · exact hwk k w hk
      · simp only [State.holding] at hsem ⊢
        omega
    · simp at h
  | handoff =>
    simp only [AsyncFetch.step] at h
    split at h
    · rename_i hcons hj hp
      simp only [Option.some.injEq] at h
      subst h
      have hpos := hwk s.i _ hj
      have hlt : s.i < s.li := by
        by_contra hge
        have := hpos.2.2 (by omega)
        simp at this
      have hsum : ((s.workers.set s.i .delivered).map fun w : WorkerPc =>
            if w = .fetching ∨ w = .sending ∨ w = .delivered then 1 else 0).sum + 1
          = (s.workers.map fun w : WorkerPc =>
            if w = .fetching ∨ w = .sending ∨ w = .delivered then 1 else 0).sum + 1 :=
        sum_map_set _ s.workers s.i .sending .delivered hj
      refine ⟨by simpa using hlen, by dsimp only; omega, hlile, hacq, hldone, ?_, ?_, hsemle⟩
      · intro k w hk
        dsimp only at hk ⊢
        simp only [List.getElem?_set] at hk
        split at hk
        · rename_i hjk
          split at hk
          · simp only [Option.some.injEq] at hk
            subst hk
            subst hjk
            refine ⟨fun _ => Or.inl rfl, fun h1 _ => by omega, fun h1 => by omega⟩
          · simp at hk
        · rename_i hne
          have := hwk k w hk
          refine ⟨fun h1 => this.1 (by omega), fun h1 h2 => this.2.1 (by omega) h2, this.2.2⟩
      · simp only [State.holding] at hsem ⊢
        omega
    · simp at h
  | workerExit j =>
    simp only [AsyncFetch.step] at h
    split at h
    · rename_i hj
      simp only [semRecv] at h
      split at h
      · simp only [Option.map_some', Option.some.injEq] at h
        subst h
        have hpos := hwk j _ hj
        have hsum : ((s.workers.set j .exited).map fun w : WorkerPc =>
              if w = .fetching ∨ w = .sending ∨ w = .delivered then 1 else 0).sum + 1
            = (s.workers.map fun w : WorkerPc =>
              if w = .fetching ∨ w = .sending ∨ w = .delivered then 1 else 0).sum + 0 :=
          sum_map_set _ s.workers j .delivered .exited hj
        refine ⟨by simpa using hlen, hile, hlile, hacq, hldone, ?_, ?_, by dsimp only; omega⟩
        · intro k w hk
          dsimp only at hk ⊢
          simp only [List.getElem?_set] at hk
          split at hk
          · rename_i hjk
            split at hk
            · simp only [Option.some.injEq] at hk
              subst hk
              subst hjk
              refine ⟨fun _ => Or.inr rfl, fun h1 h2 => ?_, fun h1 => ?_⟩
              · have := hpos.2.1 h1 h2
                simp at this
              · have := hpos.2.2 h1
                simp at this
            · simp at hk
          · exact hwk k w hk
        · simp only [State.holding] at hsem ⊢
          omega
      · simp at h
    · simp at h
  | consumer =>
    simp only [AsyncFetch.step] at h
    split at h
    · split at h
      · simp only [Option.some.injEq] at h
        subst h
        exact ⟨hlen, hile, hlile, hacq,
          fun _ => Or.inr (by simp [State.innerDone, State.consumerReturn]), hwk, hsem, hsemle⟩
      · simp only [Option.some.injEq] at h
        subst h
        exact ⟨hlen, hile, hlile, hacq, hldone, hwk, hsem, hsemle⟩
    · simp only [Option.some.injEq] at h
      subst h
      exact ⟨hlen, hile, hlile, hacq, hldone, hwk, hsem, hsemle⟩
    · simp at h
  | consumerCtxDone =>
    simp only [AsyncFetch.step] at h
    split at h
    · split at h
      · simp only [Option.some.injEq] at h
        subst h
        exact ⟨hlen, hile, hlile, hacq,
          fun _ => Or.inr (by simp [State.innerDone, State.consumerReturn]), hwk, hsem, hsemle⟩
      · simp at h
    · simp at h
  | consumerRecvClosed =>
    simp only [AsyncFetch.step] at h
    split at h
    · simp only [Option.some.injEq] at h
      subst h
      exact ⟨hlen, hile, hlile, hacq,
        fun _ => Or.inr (by simp [State.innerDone, State.consumerReturn]), hwk, hsem, hsemle⟩
    · simp at h
  | ctxCancel =>
    simp only [AsyncFetch.step] at h
    split at h
    · simp at h
    · simp only [Option.some.injEq] at h
      subst h
      exact ⟨hlen, hile, hlile, hacq, fun _ => Or.inr (by simp [State.innerDone]), hwk, hsem,
        hsemle⟩

/-- The successes of a sequence with one more outcome at its end. -/
theorem successes_concat (l : List ProductWithError) (p : ProductWithError) :
    successes (l ++ [p]) = successes l + (if p.Product.isSome then 1 else 0) := by
  simp [successes]

/-- The invariant `InvC` holds when `AsyncFetch` returns. -/
theorem InvC_init (cfg : AsyncFetch) : InvC cfg cfg.init := by
  refine ⟨by simp [AsyncFetch.init, AsyncFetch.initWith], by simp [AsyncFetch.init, AsyncFetch.initWith], by simp [AsyncFetch.init, AsyncFetch.initWith],
    by simp [AsyncFetch.init, AsyncFetch.initWith], by simp [AsyncFetch.init, AsyncFetch.initWith], by simp [AsyncFetch.init, AsyncFetch.initWith, successes],
    by simp [AsyncFetch.init, AsyncFetch.initWith], by simp [AsyncFetch.init, AsyncFetch.initWith], by simp [AsyncFetch.init, AsyncFetch.initWith],
    by simp [AsyncFetch.init, AsyncFetch.initWith], by simp [AsyncFetch.init, AsyncFetch.initWith]⟩

/-- Every event keeps `InvC`. -/
theorem InvC_step (cfg : AsyncFetch) (s s' : State) (a : Action)
    (h : cfg.step s a = some s') (hw : InvW cfg s) (hinv : InvC cfg s) : InvC cfg s' := by
  obtain ⟨hpre, helenle, hinhand, helen, hsel, hc, hcdone, hcancel, hclosed, hcle, hlast⟩ := hinv
  cases a with
  | launcher =>
    simp only [AsyncFetch.step] at h
    split at h
    · split at h
      · split at h
        · simp only [Option.some.injEq] at h
          subst h
          exact ⟨hpre, helenle, hinhand, helen, hsel, hc, hcdone, hcancel, hclosed, hcle, hlast⟩
        · simp only [Option.some.injEq] at h
          subst h
          exact ⟨hpre, helenle, hinhand, helen, hsel, hc, hcdone, hcancel, hclosed, hcle, hlast⟩
      · simp only [Option.some.injEq] at h
        subst h
        exact ⟨hpre, helenle, hinhand, helen, hsel, hc, hcdone, hcancel, hclosed, hcle, hlast⟩
    · simp only [semSend] at h
      split at h
      · simp only [Option.map_some', Option.some.injEq] at h
        subst h
        exact ⟨hpre, helenle, hinhand, helen, hsel, hc, hcdone, hcancel, hclosed, hcle, hlast⟩
      · simp at h
    · simp at h
  | workerFetch j =>
    simp only [AsyncFetch.step] at h
    split at h
    · simp only [Option.some.injEq] at h
      subst h
      exact ⟨hpre, helenle, hinhand, helen, hsel, hc, hcdone, hcancel, hclosed, hcle, hlast⟩
    · simp at h
  | handoff =>
    simp only [AsyncFetch.step] at h
    split at h
    · rename_i p hcons hj hp
      simp only [Option.some.injEq] at h
      subst h
      have hlen := helen (by simp [hcons])
      have hs := hsel hcons
      refine ⟨hpre, helenle, ?_, ?_, by simp, hc, by simp, by simpa [hcons] using hcancel,
        by simpa [hcons] using hclosed, hcle, hlast⟩
      · intro q hq
        simp only [ConsumerPc.emit.injEq] at hq
        subst hq
        exact ⟨by dsimp only; omega, by rw [hlen]; exact hp, hs.2⟩
      · intro hne
        exact absurd rfl (hne p)
    · simp at h
  | workerExit j =>
    simp only [AsyncFetch.step] at h
    split at h
    · simp only [semRecv] at h
      split at h
      · simp only [Option.map_some', Option.some.injEq] at h
        subst h
        exact ⟨hpre, helenle, hinhand, helen, hsel, hc, hcdone, hcancel, hclosed, hcle, hlast⟩
      · simp at h
    · simp at h
  | consumer =>
    simp only [AsyncFetch.step] at h
    split at h
    · rename_i hcons
      have hlen := helen (by simp [hcons])
      split at h
      · rename_i hstop
        simp only [Option.some.injEq] at h
        subst h
        refine ⟨hpre, helenle, by simp [State.consumerReturn],
          by simpa [State.consumerReturn] using hlen, by simp [State.consumerReturn], hc,
          fun _ => Or.inr hstop, by simp [State.consumerReturn], by simp [State.consumerReturn],
          hcle, hlast⟩
      · rename_i hgo
        simp only [Option.some.injEq] at h
        subst h
        refine ⟨hpre, helenle, by simp, by simpa using hlen, ?_, hc, by simp,
          by simpa [hcons] using hcancel, by simpa [hcons] using hclosed, hcle, hlast⟩
        intro _
        dsimp only
        constructor <;> omega
    · rename_i p hcons
      simp only [Option.some.injEq] at h
      subst h
      obtain ⟨h1, h2, h3⟩ := hinhand p hcons
      have hlt : s.emitted.length < cfg.outcomes.length := by
        by_contra hge
        rw [List.getElem?_eq_none (by omega)] at h2
        simp at h2
      refine ⟨?_, by simp only [List.length_append, List.length_singleton]; omega, by simp,
        by simp only [List.length_append, List.length_singleton]; intro _; omega, by simp, ?_,
        by simp, by simpa [hcons] using hcancel, by simpa [hcons] using hclosed, ?_, ?_⟩
      · dsimp only
        rw [List.length_append, List.length_singleton, List.take_succ, h2, ← hpre]
        rfl
      · dsimp only
        rw [successes_concat, hc]
        split <;> simp
      · intro _
        dsimp only
        split <;> omega
      · intro j hj
        dsimp only at hj ⊢
        simp only [List.length_append, List.length_singleton] at hj
        rw [List.take_append_of_le_length (by omega)]
        by_cases hjl : j < s.emitted.length
        · exact hlast j hjl
        · have : j = s.emitted.length := by omega
          rw [this, List.take_length, ← hc]
          exact h3
    · rename_i h1 h2
      simp at h
  | consumerCtxDone =>
    simp only [AsyncFetch.step] at h
    split at h
    · rename_i hcons
      have hlen := helen (by simp [hcons])
      split at h
      · rename_i hd
        simp only [Option.some.injEq] at h
        subst h
        exact ⟨hpre, helenle, by simp [State.consumerReturn],
          by simpa [State.consumerReturn] using hlen, by simp [State.consumerReturn], hc,
          fun _ => Or.inl hd, by simp [State.consumerReturn], by simp [State.consumerReturn],
          hcle, hlast⟩
      · simp at h
    · simp at h
  | consumerRecvClosed =>
    simp only [AsyncFetch.step] at h
    split at h
    · rename_i hcons hj
      have := (hw.wk s.i _ hj).2.1 (le_refl _)
      have hlt : s.i < s.li := by
        by_contra hge
        have := (hw.wk s.i _ hj).2.2 (by omega)
        simp at this
      have := (hw.wk s.i _ hj).2.1 (le_refl _) hlt
      simp at this
    · simp at h
  | ctxCancel =>
    simp only [AsyncFetch.step] at h
    split at h
    · simp at h
    · simp only [Option.some.injEq] at h
      subst h
      exact ⟨hpre, helenle, hinhand, helen, hsel, hc, fun _ => Or.inl rfl, hcancel, hclosed, hcle,
        hlast⟩

/-- `InvW` and `InvC` hold along every sequence of events. -/
theorem Inv_run (cfg : AsyncFetch) :
    ∀ (acts : List Action) (s s' : State), cfg.run s acts = some s' →
      InvW cfg s → InvC cfg s → InvW cfg s' ∧ InvC cfg s'
  | [], s, s', h, hw, hc => by
      simp only [AsyncFetch.run, Option.some.injEq] at h
      subst h
      exact ⟨hw, hc⟩
  | a :: as, s, s', h, hw, hc => by
      simp only [AsyncFetch.run] at h
      cases hs : cfg.step s a with
      | none => simp [hs] at h
      | some s1 =>
        simp only [hs, Option.some_bind] at h
        exact Inv_run cfg as s1 s' h (InvW_step cfg s s1 a hs hw) (InvC_step cfg s s1 a hs hw hc)

/-- `InvW` and `InvC` hold in every reachable state. -/
theorem Inv_reachable (cfg : AsyncFetch) (s : State) (h : cfg.Reachable s) :
    InvW cfg s ∧ InvC cfg s := by
  obtain ⟨acts, hacts⟩ := h
  exact Inv_run cfg acts cfg.init s hacts (InvW_init cfg) (InvC_init cfg)

/-- Every event makes the potential smaller. -/
theorem potential_step (cfg : AsyncFetch) (s s' : State) (a : Action)
    (h : cfg.step s a = some s') (hw : InvW cfg s) :
    s'.potential cfg < s.potential cfg := by
  cases a with
  | launcher =>
    simp only [AsyncFetch.step] at h
    split at h
    · rename_i hl
      split at h
      · split at h
        · simp only [Option.some.injEq] at h
          subst h
          simp only [State.potential, hl]
          omega
        · simp only [Option.some.injEq] at h
          subst h
          simp only [State.potential, hl]
          omega
      · simp only [Option.some.injEq] at h
        subst h
        simp only [State.potential, hl]
        omega
    · rename_i hl
      have hlt := hw.acq hl
      simp only [semSend] at h
      split at h
      · simp only [Option.map_some', Option.some.injEq] at h
        subst h
        have hidle : s.workers[s.li]? = some .idle := by
          have hx : s.li < s.workers.length := by have := hw.len; omega
          have := hw.wk s.li _ (List.getElem?_eq_getElem hx)
          rw [List.getElem?_eq_getElem hx, this.2.2 (le_refl _)]
        have hsum : ((s.workers.set s.li .fetching).map WorkerPc.rank).sum + 3
            = (s.workers.map WorkerPc.rank).sum + 3 :=
          sum_map_set _ s.workers s.li .idle .fetching hidle
        simp only [State.potential, hl]
        omega
      · simp at h
    · simp at h
  | workerFetch j =>
    simp only [AsyncFetch.step] at h
    split at h
    · rename_i hj
      simp only [Option.some.injEq] at h
      subst h
      have hsum : ((s.workers.set j .sending).map WorkerPc.rank).sum + 3
          = (s.workers.map WorkerPc.rank).sum + 2 :=
        sum_map_set _ s.workers j .fetching .sending hj
      simp only [State.potential]
      omega
    · simp at h
  | handoff =>
    simp only [AsyncFetch.step] at h
    split at h
    · rename_i p hcons hj hp
      simp only [Option.some.injEq] at h
      subst h
      have hsum : ((s.workers.set s.i .delivered).map WorkerPc.rank).sum + 2
          = (s.workers.map WorkerPc.rank).sum + 1 :=
        sum_map_set _ s.workers s.i .sending .delivered hj
      have hlt : s.i < cfg.outcomes.length := by
        by_contra hge
        rw [List.getElem?_eq_none (by omega)] at hp
        simp at hp
      simp only [State.potential, hcons]
      omega
    · simp at h
  | workerExit j =>
    simp only [AsyncFetch.step] at h
    split at h
    · rename_i hj
      simp only [semRecv] at h
      split at h
      · simp only [Option.map_some', Option.some.injEq] at h
        subst h
        have hsum : ((s.workers.set j .exited).map WorkerPc.rank).sum + 1
            = (s.workers.map WorkerPc.rank).sum + 0 :=
          sum_map_set _ s.workers j .delivered .exited hj
        simp only [State.potential]
        omega
      · simp at h
    · simp at h
  | consumer =>
    simp only [AsyncFetch.step] at h
    split at h
    · rename_i hcons
      split at h
      · simp only [Option.some.injEq] at h
        subst h
        simp only [State.potential, State.consumerReturn, hcons]
        omega
      · simp only [Option.some.injEq] at h
        subst h
        simp only [State.potential, hcons]
        omega
    · rename_i p hcons
      simp only [Option.some.injEq] at h
      subst h
      simp only [State.potential, hcons]
      omega
    · simp at h
  | consumerCtxDone =>
    simp only [AsyncFetch.step] at h
    split at h
    · rename_i hcons
      split at h
      · simp only [Option.some.injEq] at h
        subst h
        simp only [State.potential, State.consumerReturn, hcons]
        omega
      · simp at h
    · simp at h
  | consumerRecvClosed =>
    simp only [AsyncFetch.step] at h
    split at h
    · rename_i hcons hj
      simp only [Option.some.injEq] at h
      subst h
      simp only [State.potential, State.consumerReturn, hcons]
      omega
    · simp at h
  | ctxCancel =>
    simp only [AsyncFetch.step] at h
    split at h
    · simp at h
    · rename_i hd
      simp only [Option.some.injEq] at h
      subst h
      simp only [State.potential, hd]
      simp

/-- A run of `acts` events uses up at least `acts.length` of the potential. -/
theorem potential_run (cfg : AsyncFetch) :
    ∀ (acts : List Action) (s s' : State), cfg.run s acts = some s' →
      InvW cfg s → acts.length + s'.potential cfg ≤ s.potential cfg
  | [], s, s', h, _ => by
      simp only [AsyncFetch.run, Option.some.injEq] at h
      subst h
      simp
  | a :: as, s, s', h, hw => by
      simp only [AsyncFetch.run] at h
      cases hs : cfg.step s a with
      | none => simp [hs] at h
      | some s1 =>
        simp only [hs, Option.some_bind] at h
        have h1 := potential_step cfg s s1 a hs hw
        have h2 := potential_run cfg as s1 s' h (InvW_step cfg s s1 a hs hw)
        simp only [List.length_cons]
        omega

/-- The potential of the initial state. -/
theorem potential_init (cfg : AsyncFetch) :
    cfg.init.potential cfg = 8 * cfg.outcomes.length + 5 := by
  simp only [State.potential, AsyncFetch.init, AsyncFetch.initWith, List.map_replicate, List.sum_replicate,
    WorkerPc.rank, smul_eq_mul]
  simp only [Bool.false_eq_true, if_false]
  omega

/-- Every run of an invocation is finite: it has at most `8 n + 5` events. -/
theorem run_length_le (cfg : AsyncFetch) (acts : List Action) (s : State)
    (h : cfg.run cfg.init acts = some s) : acts.length ≤ 8 * cfg.outcomes.length + 5 := by
  have := potential_run cfg acts cfg.init s h (InvW_init cfg)
  rw [potential_init] at this
  omega

/-- A list whose measure has a positive sum has an entry of positive measure. -/
theorem exists_pos_of_sum_pos {α : Type} (f : α → Nat) (l : List α) :
    0 < (l.map f).sum → ∃ (j : Nat) (a : α), l[j]? = some a ∧ 0 < f a := by
  induction l with
  | nil => intro h; simp at h
  | cons x xs ih =>
    intro h
    simp only [List.map_cons, List.sum_cons] at h
    by_cases hx : 0 < f x
    · exact ⟨0, x, by simp, hx⟩
    · obtain ⟨j, a, hj, ha⟩ := ih (by omega)
      exact ⟨j + 1, a, by simpa using hj, ha⟩

/-- No deadlock, as enabledness: while the caller has not canceled and the consumer has
not returned, on a semaphore of capacity at least one some goroutine can move. -/
theorem progress_enabled (cfg : AsyncFetch) (s : State) (hK : 1 ≤ cfg.K) (hw : InvW cfg s)
    (hc : InvC cfg s) (hctx : s.ctxDone = false) (hcons : s.consumer ≠ .done) :
    ∃ a, a ≠ Action.ctxCancel ∧ (cfg.step s a).isSome = true := by
  cases hcs : s.consumer with
  | done => exact absurd hcs hcons
  | head =>
    refine ⟨.consumer, by simp, ?_⟩
    simp only [AsyncFetch.step, hcs]
    split <;> rfl
  | emit p =>
    exact ⟨.consumer, by simp, by simp only [AsyncFetch.step, hcs, Option.isSome_some]⟩
  | select =>
    have hin := (hc.sel hcs).1
    have hnc : s.cancelCalled = false := by
      cases hcc : s.cancelCalled with
      | false => rfl
      | true => exact absurd (hc.cancel.1 hcc) hcons
    have hinner : s.innerDone = false := by simp [State.innerDone, hnc, hctx]
    by_cases hlt : s.i < s.li
    · have hx : s.i < s.workers.length := by have := hw.len; omega
      have hget := List.getElem?_eq_getElem hx
      have hox : cfg.outcomes[s.i]? = some cfg.outcomes[s.i] := List.getElem?_eq_getElem hin
      rcases (hw.wk s.i _ hget).2.1 (le_refl _) hlt with hf | hsd
      · rw [hf] at hget
        exact ⟨.workerFetch s.i, by simp,
          by simp only [AsyncFetch.step, hget, Option.isSome_some]⟩
      · rw [hsd] at hget
        exact ⟨.handoff, by simp,
          by simp only [AsyncFetch.step, hcs, hget, hox, Option.isSome_some]⟩
    · cases hl : s.launcher with
      | select =>
        refine ⟨.launcher, by simp, ?_⟩
        simp only [AsyncFetch.step, hl, hinner]
        split <;> simp
      | done =>
        rcases hw.ldone hl with h1 | h1
        · omega
        · rw [hinner] at h1
          cases h1
      | acquire =>
        by_cases hsem : s.sem < cfg.K
        · exact ⟨.launcher, by simp,
            by simp only [AsyncFetch.step, hl, semSend, hsem, if_true, Option.map_some',
              Option.isSome_some]⟩
        · have hpos : 0 < s.holding := by have := hw.sem; omega
          obtain ⟨j, w, hj, hwpos⟩ := exists_pos_of_sum_pos _ s.workers hpos
          have hwk := hw.wk j w hj
          have hdel : w = .delivered := by
            by_cases hji : j < s.i
            · rcases hwk.1 hji with h1 | h1
              · exact h1
              · subst h1
                simp at hwpos
            · by_cases hjl : j < s.li
              · omega
              · have := hwk.2.2 (by omega)
                subst this
                simp at hwpos
          subst hdel
          have hs0 : 0 < s.sem := by have := hw.sem; omega
          exact ⟨.workerExit j, by simp,
            by simp only [AsyncFetch.step, hj, semRecv, hs0, if_true, Option.map_some',
              Option.isSome_some]⟩

/-- No deadlock: while the caller has not canceled and the consumer has not returned, on
a semaphore of capacity at least one some event other than a cancellation can happen. -/
theorem progress (cfg : AsyncFetch) (s : State) (hK : 1 ≤ cfg.K) (hw : InvW cfg s)
    (hc : InvC cfg s) (hctx : s.ctxDone = false) (hcons : s.consumer ≠ .done) :
    ∃ a s', a ≠ Action.ctxCancel ∧ cfg.step s a = some s' := by
  obtain ⟨a, ha, hsome⟩ := progress_enabled cfg s hK hw hc hctx hcons
  obtain ⟨s', hs'⟩ := Option.isSome_iff_exists.1 hsome
  exact ⟨a, s', ha, hs'⟩

/-- Only a cancellation by the caller changes `ctxDone`. -/
theorem ctxDone_step (cfg : AsyncFetch) (s s' : State) (a : Action)
    (h : cfg.step s a = some s') (ha : a ≠ Action.ctxCancel) : s'.ctxDone = s.ctxDone := by
  cases a with
  | launcher =>
    simp only [AsyncFetch.step] at h
    split at h
    · split at h
      · split at h <;>
        · simp only [Option.some.injEq] at h
          subst h
          rfl
      · simp only [Option.some.injEq] at h
        subst h
        rfl
    · simp only [semSend] at h
      split at h
      · simp only [Option.map_some', Option.some.injEq] at h
        subst h
        rfl
      · simp at h
    · simp at h
  | workerFetch j =>
    simp only [AsyncFetch.step] at h
    split at h
    · simp only [Option.some.injEq] at h
      subst h
      rfl
    · simp at h
  | handoff =>
    simp only [AsyncFetch.step] at h
    split at h
    · simp only [Option.some.injEq] at h
      subst h
      rfl
    · simp at h
  | workerExit j =>
    simp only [AsyncFetch.step] at h
    split at h
    · simp only [semRecv] at h
      split at h
      · simp only [Option.map_some', Option.some.injEq] at h
        subst h
        rfl
      · simp at h
    · simp at h
  | consumer =>
    simp only [AsyncFetch.step] at h
    split at h
    · split at h <;>
      · simp only [Option.some.injEq] at h
        subst h
        rfl
    · simp only [Option.some.injEq] at h
      subst h
      rfl
    · simp at h
  | consumerCtxDone =>
    simp only [AsyncFetch.step] at h
    split at h
    · split at h
      · simp only [Option.some.injEq] at h
        subst h
        rfl
      · simp at h
    · simp at h
  | consumerRecvClosed =>
    simp only [AsyncFetch.step] at h
    split at h
    · simp only [Option.some.injEq] at h
      subst h
      rfl
    · simp at h
  | ctxCancel => exact absurd rfl ha

/-- Termination: on a semaphore of capacity at least one, from a state in which the caller
has not canceled there is a run, without cancellation, to the return of the consumer. -/
theorem exists_run_to_done (cfg : AsyncFetch) (hK : 1 ≤ cfg.K) :
    ∀ (n : Nat) (s : State), InvW cfg s → InvC cfg s → s.ctxDone = false →
      s.potential cfg ≤ n →
      ∃ acts s', cfg.run s acts = some s' ∧ s'.ctxDone = false ∧ s'.consumer = .done := by
  intro n
  induction n with
  | zero =>
    intro s hw hc hctx hpot
    by_cases hdone : s.consumer = .done
    · exact ⟨[], s, rfl, hctx, hdone⟩
    · obtain ⟨a, s1, _, hs1⟩ := progress cfg s hK hw hc hctx hdone
      have := potential_step cfg s s1 a hs1 hw
      omega
  | succ n ih =>
    intro s hw hc hctx hpot
    by_cases hdone : s.consumer = .done
    · exact ⟨[], s, rfl, hctx, hdone⟩
    · obtain ⟨a, s1, ha, hs1⟩ := progress cfg s hK hw hc hctx hdone
      have hlt := potential_step cfg s s1 a hs1 hw
      have hctx1 : s1.ctxDone = false := by rw [ctxDone_step cfg s s1 a hs1 ha, hctx]
      obtain ⟨acts, s', hrun, h1, h2⟩ := ih s1 (InvW_step cfg s s1 a hs1 hw)
        (InvC_step cfg s s1 a hs1 hw hc) hctx1 (by omega)
      exact ⟨a :: acts, s', by simp only [AsyncFetch.run, hs1, Option.some_bind, hrun], h1, h2⟩

/-- C1. The success quota: on a semaphore of capacity at least one, with
`0 ≤ count` and at least `count` successful outcomes among the items, every run is
finite and some run without cancellation ends with the consumer returned; as long as the
caller has not canceled, the invocation cannot get stuck before the consumer returns; and
when the consumer has returned, what was emitted is a prefix of the outcomes in item
order that contains exactly `count` successes, each proper prefix of it containing fewer,
so that nothing follows the `count`-th success. -/
theorem AsyncFetch_quota_reached (cfg : AsyncFetch) (hK : 1 ≤ cfg.K) (h0 : 0 ≤ cfg.count)
    (hs : cfg.count ≤ (successes cfg.outcomes : Int)) :
    (∀ acts s, cfg.run cfg.init acts = some s → acts.length ≤ 8 * cfg.outcomes.length + 5) ∧
    (∃ acts s, cfg.run cfg.init acts = some s ∧ s.ctxDone = false ∧ s.consumer = .done) ∧
    ∀ s, cfg.Reachable s → s.ctxDone = false →
      (s.consumer ≠ .done → ∃ a s', a ≠ Action.ctxCancel ∧ cfg.step s a = some s') ∧
      (s.consumer = .done →
        (successes s.emitted : Int) = cfg.count ∧
        (∀ j, j < s.emitted.length → (successes (s.emitted.take j) : Int) < cfg.count) ∧
        (∃ m, m ≤ cfg.outcomes.length ∧ s.emitted = cfg.outcomes.take m) ∧
        s.respClosed = true) := by
  refine ⟨run_length_le cfg,
    exists_run_to_done cfg hK _ cfg.init (InvW_init cfg) (InvC_init cfg) rfl (le_refl _),
    fun s hr hctx => ?_⟩
  obtain ⟨hw, hc⟩ := Inv_reachable cfg s hr
  refine ⟨progress cfg s hK hw hc hctx, fun hdone => ?_⟩
  refine ⟨?_, hc.last, ⟨s.emitted.length, hc.elen_le, hc.pre⟩, hc.closed.2 hdone⟩
  have hle := hc.cle h0
  have hcs := hc.c
  rcases hc.cdone hdone with h1 | h1 | h1
  · rw [hctx] at h1
    cases h1
  · omega
  · have hlen := hc.elen (by simp [hdone])
    have hall : s.emitted = cfg.outcomes := by
      have := hc.pre
      rw [List.take_of_length_le (by have := hc.elen_le; omega)] at this
      exact this
    rw [hall] at hcs
    rw [hall]
    omega

/-- The quota theorem on `quotaCfg`, at the end of `quotaTrace`, where the worker of item 1
finished first: the outcomes of items 0, 1 and 2 were emitted, in that order. -/
theorem AsyncFetch_quota_reached_witness :
    (1 ≤ quotaCfg.K ∧ 0 ≤ quotaCfg.count ∧ quotaCfg.count ≤ (successes quotaCfg.outcomes : Int)) ∧
    quotaCfg.run quotaCfg.init quotaTrace = some quotaFinal ∧
    quotaFinal.emitted = [okOutcome 1, errOutcome, okOutcome 3] ∧
    ((successes quotaFinal.emitted : Int) = quotaCfg.count ∧
      (∀ j, j < quotaFinal.emitted.length →
        (successes (quotaFinal.emitted.take j) : Int) < quotaCfg.count) ∧
      (∃ m, m ≤ quotaCfg.outcomes.length ∧ quotaFinal.emitted = quotaCfg.outcomes.take m) ∧
      quotaFinal.respClosed = true) :=
  ⟨by decide, by decide, rfl,
    ((AsyncFetch_quota_reached quotaCfg (by decide) (by decide) (by decide)).2.2 quotaFinal
      ⟨quotaTrace, by decide⟩ rfl).2 rfl⟩

/-- C2. Index order: in every reachable state of every invocation, whatever the order in
which the workers finish, whatever the capacity and the count, and whether or not the
caller cancels, the sequence emitted so far is `outcomes[0], ..., outcomes[m-1]` for some
`m ≤ n`. -/
theorem AsyncFetch_emits_in_index_order (cfg : AsyncFetch) (s : State)
    (h : cfg.Reachable s) :
    ∃ m, m ≤ cfg.outcomes.length ∧ s.emitted = cfg.outcomes.take m ∧
      ∀ k, k < m → s.emitted[k]? = cfg.outcomes[k]? := by
  obtain ⟨_, hc⟩ := Inv_reachable cfg s h
  refine ⟨s.emitted.length, hc.elen_le, hc.pre, fun k hk => ?_⟩
  conv_lhs => rw [hc.pre]
  rw [List.getElem?_take_of_lt hk]

/-- The index-order theorem at the state the run `leakTrace` ends in, where the caller has
canceled and a worker is still blocked. -/
theorem AsyncFetch_emits_in_index_order_witness :
    leakCfg.Reachable leakStuck ∧
    ∃ m, m ≤ leakCfg.outcomes.length ∧ leakStuck.emitted = leakCfg.outcomes.take m ∧
      ∀ k, k < m → leakStuck.emitted[k]? = leakCfg.outcomes[k]? :=
  ⟨⟨leakTrace, by decide⟩,
    AsyncFetch_emits_in_index_order leakCfg leakStuck ⟨leakTrace, by decide⟩⟩

/-- C7. A token of `f.sem` is never given back: `leakCfg` (two successful items, one
success wanted) reaches a state in which the consumer has returned, the caller has
canceled, no event at all can happen, and the worker of item 1 is blocked at the send on
its response channel, which nobody receives from, still holding its token. -/
theorem AsyncFetch_permit_leak :
    leakCfg.run leakCfg.init leakTrace = some leakStuck ∧
    leakStuck.consumer = .done ∧
    (∀ a, leakCfg.step leakStuck a = none) ∧
    leakStuck.workers[1]? = some .sending ∧
    leakStuck.holding = 1 ∧ leakStuck.sem = 1 := by
  refine ⟨by decide, rfl, ?_, rfl, by decide, rfl⟩
  intro a
  cases a with
  | launcher => rfl
  | workerFetch j =>
    rcases j with _ | _ | j <;> rfl
  | handoff => rfl
  | workerExit j =>
    rcases j with _ | _ | j <;> rfl
  | consumer => rfl
  | consumerCtxDone => rfl
  | consumerRecvClosed => rfl
  | ctxCancel => rfl

/-- C9. A resolver task is started after cancellation: in `raceCfg` the launcher is
blocked at the send on `f.sem` for item 1 when the consumer reaches the quota and cancels
`innerCtx`; when the worker of item 0 gives its token back the send goes through and the
worker of item 1 is started. That worker can only end blocked at its send, which nobody
receives from: the run goes on to a state in which no event can happen and the token is
still held. -/
theorem AsyncFetch_launches_after_cancel :
    raceCfg.run raceCfg.init raceTrace = some raceBlocked ∧
    raceBlocked.innerDone = true ∧
    raceBlocked.launcher = .acquire ∧
    raceBlocked.workers[1]? = some .idle ∧
    raceCfg.step raceBlocked .launcher = some raceLaunched ∧
    raceLaunched.workers[1]? = some .fetching ∧
    raceCfg.run raceLaunched [.workerFetch 1, .launcher, .ctxCancel] = some raceStuck ∧
    (∀ a, raceCfg.step raceStuck a = none) ∧
    raceStuck.workers[1]? = some .sending ∧
    raceStuck.holding = 1 ∧ raceStuck.sem = 1 := by
  refine ⟨by decide, by decide, rfl, rfl, by decide, rfl, by decide, ?_, rfl, by decide, rfl⟩
  intro a
  cases a with
  | launcher => rfl
  | workerFetch j =>
    rcases j with _ | _ | j <;> rfl
  | handoff => rfl
  | workerExit j =>
    rcases j with _ | _ | j <;> rfl
  | consumer => rfl
  | consumerCtxDone => rfl
  | consumerRecvClosed => rfl
  | ctxCancel => rfl

end Productmeta
